import Mathlib

/-!
Verification development for the block synchronization chain
(src/sync/src/synchronization_chain.rs).

The Chain facade itself is translated from the source file.  Its three
collaborators (the Store, the HashQueueChain primitive and the
BestHeadersChain header index) are code of the repository that is not part
of the source tree given here; they are modelled from the specification
(sections 4.1 and 6).  Hashes (H256) are abstracted as natural numbers;
u32 quantities are modelled as Nat (no arithmetic in the verified claims
depends on 32-bit wrap-around).  A Rust panic (assert, expect,
unreachable) and a loop that would not terminate are both modelled by
returning none.
-/

/-- A 32-byte digest, abstracted as a natural number. -/
abbrev H256 := Nat

/-- Index of the verifying queue (source constant VERIFYING_QUEUE). -/
def VERIFYING_QUEUE : Nat := 0
/-- Index of the requested queue (source constant REQUESTED_QUEUE). -/
def REQUESTED_QUEUE : Nat := 1
/-- Index of the scheduled queue (source constant SCHEDULED_QUEUE). -/
def SCHEDULED_QUEUE : Nat := 2
/-- Number of hash queues (source constant NUMBER_OF_QUEUES). -/
def NUMBER_OF_QUEUES : Nat := 3

/-- Block synchronization state (source enum BlockState). -/
inductive BlockState where
  | Unknown
  | Scheduled
  | Requested
  | Verifying
  | Stored
deriving DecidableEq

/-- Where a removal landed (spec section 3, HashPosition). -/
inductive HashPosition where
  | Missing
  | Front
  | Inside (index : Nat)
  | Back
deriving DecidableEq

/-- Result of intersecting chain and inventory (source enum HeadersIntersection). -/
inductive HeadersIntersection where
  | NoKnownBlocks (index : Nat)
  | InMemoryNoNewBlocks
  | InMemoryMainNewBlocks (index : Nat)
  | InMemoryForkNewBlocks (index : Nat)
  | DbAllBlocksKnown
  | DbForkNewBlocks (index : Nat)
deriving DecidableEq

/-- Best block record (spec section 3, BestBlock). -/
structure BestBlock where
  number : Nat
  hash : H256
deriving DecidableEq

/-- A block header: its own hash (the modelled hash function is a field)
and the hash of the parent header. -/
structure Header where
  hash : H256
  previous_header_hash : H256
deriving DecidableEq

/-- A full block; only its header hash matters to the Chain. -/
structure Block where
  hash : H256
deriving DecidableEq

/-- Storage error, propagated verbatim by insert_best_block. -/
inductive DbError where
  | storage (code : Nat)
deriving DecidableEq

/-- Modelled from the spec: the durable Store (section 6).  It is a
height-indexed list of block hashes together with the outcome that
insert_block reports for each block.  block_hash, block_number,
contains_block and best_block are derived from the list; insert_block
appends the hash of the block on success and changes nothing on error. -/
structure Store where
  blocks : List H256
  insertOutcome : Block → Option DbError

/-- Modelled from the spec: Store.block_hash(number). -/
def Store.block_hash (s : Store) (n : Nat) : Option H256 :=
  s.blocks[n]?

/-- Modelled from the spec: Store.block_number(hash). -/
def Store.block_number (s : Store) (h : H256) : Option Nat :=
  s.blocks.findIdx? (fun x => x = h)

/-- Modelled from the spec: Store.contains_block(BlockRef::Hash(h)). -/
def Store.contains_block (s : Store) (h : H256) : Bool :=
  s.blocks.contains h

/-- Modelled from the spec: Store.best_block(). -/
def Store.best_block (s : Store) : Option BestBlock :=
  match s.blocks.getLast? with
  | none => none
  | some h => some { number := s.blocks.length - 1, hash := h }

/-- Modelled from the spec: Store.insert_block(block). -/
def Store.insert_block (s : Store) (b : Block) : Except DbError Store :=
  match s.insertOutcome b with
  | some e => Except.error e
  | none => Except.ok { s with blocks := s.blocks ++ [b.hash] }

/-- Modelled from the spec: the HashQueueChain primitive (section 4.1),
a fixed-arity family of ordered FIFOs; here the arity is the
NUMBER_OF_QUEUES = 3 used by the Chain.  Concatenation order for indexed
access and back() is queue 0 (verifying) first through queue 2
(scheduled) last. -/
structure HashQueueChain where
  verifying : List H256
  requested : List H256
  scheduled : List H256

/-- The queue with the given index (0 = verifying, 1 = requested,
2 = scheduled; the Chain never uses another index). -/
def HashQueueChain.queueAt (q : HashQueueChain) (i : Nat) : List H256 :=
  if i = VERIFYING_QUEUE then q.verifying
  else if i = REQUESTED_QUEUE then q.requested
  else q.scheduled

/-- Replace the queue with the given index. -/
def HashQueueChain.setQueue (q : HashQueueChain) (i : Nat) (l : List H256) : HashQueueChain :=
  if i = VERIFYING_QUEUE then { q with verifying := l }
  else if i = REQUESTED_QUEUE then { q with requested := l }
  else { q with scheduled := l }

/-- Modelled from the spec: the concatenated queue sequence
(verifying, then requested, then scheduled). -/
def HashQueueChain.concat (q : HashQueueChain) : List H256 :=
  q.verifying ++ q.requested ++ q.scheduled

/-- Modelled from the spec: len_of(q). -/
def HashQueueChain.len_of (q : HashQueueChain) (i : Nat) : Nat :=
  (q.queueAt i).length

/-- Modelled from the spec: total len() over all queues. -/
def HashQueueChain.len (q : HashQueueChain) : Nat :=
  q.concat.length

/-- Modelled from the spec: back() of the concatenated queue sequence. -/
def HashQueueChain.back (q : HashQueueChain) : Option H256 :=
  q.concat.getLast?

/-- Modelled from the spec: 0-based indexed access across the
concatenation (the source names this at / the Index operator). -/
def HashQueueChain.atIndex (q : HashQueueChain) (i : Nat) : Option H256 :=
  q.concat[i]?

/-- Modelled from the spec: contains_in(hash), the queue index holding
the hash, searching queue 0 first. -/
def HashQueueChain.contains_in (q : HashQueueChain) (h : H256) : Option Nat :=
  if h ∈ q.verifying then some VERIFYING_QUEUE
  else if h ∈ q.requested then some REQUESTED_QUEUE
  else if h ∈ q.scheduled then some SCHEDULED_QUEUE
  else none

/-- Modelled from the spec: push_back_n_at(q, hashes). -/
def HashQueueChain.push_back_n_at (q : HashQueueChain) (i : Nat) (hs : List H256) : HashQueueChain :=
  q.setQueue i (q.queueAt i ++ hs)

/-- Modelled from the spec: pop_front_n_at(q, n); pops at most n from the
front of queue i and returns them together with the new state. -/
def HashQueueChain.pop_front_n_at (q : HashQueueChain) (i : Nat) (n : Nat) : List H256 × HashQueueChain :=
  ((q.queueAt i).take n, q.setQueue i ((q.queueAt i).drop n))

/-- Modelled from the spec: removal of a hash from one list, reporting
where it was found (Missing, Front, Back or Inside with its 0-based
index); the front is checked before the back. -/
def removeFromList (l : List H256) (h : H256) : HashPosition × List H256 :=
  match l.findIdx? (fun x => x = h) with
  | none => (HashPosition.Missing, l)
  | some i =>
    (if i = 0 then HashPosition.Front
     else if i = l.length - 1 then HashPosition.Back
     else HashPosition.Inside i, l.eraseIdx i)

/-- Modelled from the spec: remove_at(q, hash). -/
def HashQueueChain.remove_at (q : HashQueueChain) (i : Nat) (h : H256) : HashPosition × HashQueueChain :=
  let r := removeFromList (q.queueAt i) h
  (r.1, q.setQueue i r.2)

/-- Headers chain counters (spec: Information on headers chain). -/
structure BestHeadersInformation where
  best : Nat
  total : Nat
deriving DecidableEq

/-- Modelled from the spec: the BestHeadersChain header index
(sections 2 and 6).  It is kept as the list of inserted headers in
insertion order; hashes are unique because insertion is idempotent on a
duplicate hash.  height is the 0-based position, children reads the
parent-to-children index, remove deletes the header of the given hash. -/
structure BestHeadersChain where
  headers : List Header

/-- Modelled from the spec: insert(header), idempotent on duplicate hash. -/
def BestHeadersChain.insert (hc : BestHeadersChain) (h : Header) : BestHeadersChain :=
  if hc.headers.any (fun x => x.hash = h.hash) then hc
  else { headers := hc.headers ++ [h] }

/-- Modelled from the spec: remove(hash). -/
def BestHeadersChain.remove (hc : BestHeadersChain) (h : H256) : BestHeadersChain :=
  { headers := hc.headers.filter (fun x => x.hash ≠ h) }

/-- Modelled from the spec: height(hash), a 0-based offset above the
stored tip. -/
def BestHeadersChain.height (hc : BestHeadersChain) (h : H256) : Option Nat :=
  hc.headers.findIdx? (fun x => x.hash = h)

/-- Modelled from the spec: children(hash), the hashes whose header
names the given hash as parent. -/
def BestHeadersChain.children (hc : BestHeadersChain) (h : H256) : List H256 :=
  (hc.headers.filter (fun x => x.previous_header_hash = h)).map Header.hash

/-- Modelled from the spec: information(). -/
def BestHeadersChain.information (hc : BestHeadersChain) : BestHeadersInformation :=
  { best := hc.headers.length, total := hc.headers.length }

/-- Modelled from the spec: block_inserted_to_storage(hash, tip) removes
the header of the block that moved to storage; realignment of the best
subchain on reorganization is outside the contract consumed here. -/
def BestHeadersChain.block_inserted_to_storage (hc : BestHeadersChain) (h : H256) (_tip : H256) : BestHeadersChain :=
  hc.remove h

/-- Snapshot counters (source struct Information). -/
structure Information where
  scheduled : Nat
  requested : Nat
  verifying : Nat
  stored : Nat
  headers : BestHeadersInformation
deriving DecidableEq

/-- The synchronization Chain (source struct Chain).  The memory pool is
opaque to the specification and carries no observable state for the
verified claims, so it is omitted. -/
structure Chain where
  genesis_block_hash : H256
  best_storage_block : BestBlock
  storage : Store
  hash_chain : HashQueueChain
  headers_chain : BestHeadersChain

/-- Source Chain::information. -/
def Chain.information (c : Chain) : Information :=
  { scheduled := c.hash_chain.len_of SCHEDULED_QUEUE
    requested := c.hash_chain.len_of REQUESTED_QUEUE
    verifying := c.hash_chain.len_of VERIFYING_QUEUE
    stored := c.best_storage_block.number + 1
    headers := c.headers_chain.information }

/-- Source Chain::best_block. -/
def Chain.best_block (c : Chain) : BestBlock :=
  match c.hash_chain.back with
  | some hash => { number := c.best_storage_block.number + c.hash_chain.len, hash := hash }
  | none => c.best_storage_block

/-- Source Chain::block_hash. -/
def Chain.block_hash (c : Chain) (number : Nat) : Option H256 :=
  if number ≤ c.best_storage_block.number then
    c.storage.block_hash number
  else
    -- the source passes (number - best_storage_block.number) here
    c.hash_chain.atIndex (number - c.best_storage_block.number)

/-- Source Chain::block_number. -/
def Chain.block_number (c : Chain) (h : H256) : Option Nat :=
  match c.storage.block_number h with
  | some number => some number
  | none => (c.headers_chain.height h).map (fun p => c.best_storage_block.number + p + 1)

/-- Source Chain::block_state. -/
def Chain.block_state (c : Chain) (h : H256) : BlockState :=
  match c.hash_chain.contains_in h with
  | some 0 => BlockState.Verifying
  | some 1 => BlockState.Requested
  | some _ => BlockState.Scheduled
  | none =>
    if c.storage.contains_block h then BlockState.Stored
    else BlockState.Unknown

/-- Source Chain::request_blocks_hashes: moves (at most) n hashes from
the scheduled queue to the requested queue. -/
def Chain.request_blocks_hashes (c : Chain) (n : Nat) : Chain × List H256 :=
  let r := c.hash_chain.pop_front_n_at SCHEDULED_QUEUE n
  ({ c with hash_chain := r.2.push_back_n_at REQUESTED_QUEUE r.1 }, r.1)

/-- Source Chain::insert_best_block.  none models the panic of the
expect on the new best block of the Store (never reached: the Store has
just accepted an insertion). -/
def Chain.insert_best_block (c : Chain) (hash : H256) (block : Block) : Option (Chain × Except DbError Unit) :=
  match c.storage.insert_block block with
  | Except.error e => some (c, Except.error e)
  | Except.ok storage2 =>
    match storage2.best_block with
    | none => none
    | some bb =>
      some ({ c with
                storage := storage2
                best_storage_block := bb
                headers_chain := c.headers_chain.block_inserted_to_storage hash bb.hash },
            Except.ok ())

/-- Source Chain::forget_leave_header: remove from the first queue that
holds the hash, searching verifying, then requested, then scheduled. -/
def Chain.forget_leave_header (c : Chain) (h : H256) : Chain × HashPosition :=
  let r0 := c.hash_chain.remove_at VERIFYING_QUEUE h
  match r0.1 with
  | HashPosition.Missing =>
    let r1 := c.hash_chain.remove_at REQUESTED_QUEUE h
    match r1.1 with
    | HashPosition.Missing =>
      let r2 := c.hash_chain.remove_at SCHEDULED_QUEUE h
      ({ c with hash_chain := r2.2 }, r2.1)
    | p => ({ c with hash_chain := r1.2 }, p)
  | p => ({ c with hash_chain := r0.2 }, p)

/-- Source Chain::forget: forget_leave_header, and drop the header when
the hash was found. -/
def Chain.forget (c : Chain) (h : H256) : Chain × HashPosition :=
  let r := c.forget_leave_header h
  if r.2 ≠ HashPosition.Missing then
    ({ r.1 with headers_chain := r.1.headers_chain.remove h }, r.2)
  else r

/-- Source Chain::forget_with_children, first loop: breadth-first
discovery of the hash and its transitive descendants over the
parent-to-children index of the headers chain.  The queue is extended
with the children of each popped hash and the popped hash is appended to
the removal stack (the discovery order).  fuel bounds the number of pops;
none models a run the Rust loop would not finish within that bound. -/
def discoverLoop (hc : BestHeadersChain) : Nat → List H256 → List H256 → Option (List H256)
  | _, [], stack => some stack
  | 0, _ :: _, _ => none
  | fuel + 1, h :: rest, stack => discoverLoop hc fuel (rest ++ hc.children h) (stack ++ [h])

/-- Fuel that suffices for every terminating discovery over a headers
chain with unique hashes: the start hash plus one pop per header. -/
def Chain.discoveryFuel (c : Chain) : Nat :=
  c.headers_chain.headers.length + 1

/-- Source Chain::forget_with_children, second loop folded over the
reversed removal stack: the stack is popped from the back, so the hashes
are forgotten in reverse discovery order. -/
def Chain.forget_with_children (c : Chain) (h : H256) : Option Chain :=
  match discoverLoop c.headers_chain c.discoveryFuel [h] [] with
  | none => none
  | some stack => some (stack.reverse.foldl (fun ch x => (ch.forget x).1) c)

/-- Source Chain::intersect_with_headers, the scan of the branch where
the first hash is known and the last is unknown: walk index upward
carrying the state of the previous hash; classify at the first unknown
hash.  none models the unreachable arm after the loop (the source
aborts there). -/
def Chain.intersectScan (c : Chain) (hashes : List H256) (index : Nat) (previous_state : BlockState) : Option HeadersIntersection :=
  if hlt : index < hashes.length then
    match hashes[index]?, hashes[index - 1]? with
    | some cur, some prev =>
      let state := c.block_state cur
      if state = BlockState.Unknown then
        if previous_state = BlockState.Stored then
          some (HeadersIntersection.DbForkNewBlocks index)
        else if c.best_block.hash = prev then
          some (HeadersIntersection.InMemoryMainNewBlocks index)
        else
          some (HeadersIntersection.InMemoryForkNewBlocks index)
      else
        c.intersectScan hashes (index + 1) state
    | _, _ => none
  else none
termination_by hashes.length - index

/-- Source Chain::intersect_with_headers.  The outer none models the
panic of the assert on empty or length-mismatched inputs; the head and
getLast lookups cannot miss once the assert passed. -/
def Chain.intersect_with_headers (c : Chain) (hashes : List H256) (headers : List Header) : Option HeadersIntersection :=
  if hashes.length ≠ 0 ∧ hashes.length = headers.length then
    match hashes.head?, headers.head? with
    | some first_hash, some first_header =>
      let p :=
        match c.block_state first_hash with
        | BlockState.Unknown => (false, c.block_state first_header.previous_header_hash)
        | state => (true, state)
      if p.2 = BlockState.Unknown then
        some (HeadersIntersection.NoKnownBlocks 0)
      else
        match hashes.getLast? with
        | none => none
        | some last_hash =>
          match c.block_state last_hash with
          | BlockState.Stored => some HeadersIntersection.DbAllBlocksKnown
          | BlockState.Unknown =>
            if p.1 = false then
              if p.2 = BlockState.Stored then
                some (HeadersIntersection.DbForkNewBlocks 0)
              else if c.best_block.hash = first_header.previous_header_hash then
                some (HeadersIntersection.InMemoryMainNewBlocks 0)
              else
                some (HeadersIntersection.InMemoryForkNewBlocks 0)
            else
              c.intersectScan hashes 1 p.2
          | _ => some HeadersIntersection.InMemoryNoNewBlocks
    | _, _ => none
  else none

/-- The scan of the decision procedure of spec section 4.3, transcribed
from the spec text: find the first index i (counting upward from the
start index) whose hash is in state Unknown and classify by the state of
the hash at i - 1 and by comparison with the virtual best block hash. -/
def specScan (c : Chain) (hashes : List H256) (i : Nat) : Option HeadersIntersection :=
  if hlt : i < hashes.length then
    match hashes[i]?, hashes[i - 1]? with
    | some cur, some prev =>
      if c.block_state cur = BlockState.Unknown then
        if c.block_state prev = BlockState.Stored then
          some (HeadersIntersection.DbForkNewBlocks i)
        else if c.best_block.hash = prev then
          some (HeadersIntersection.InMemoryMainNewBlocks i)
        else
          some (HeadersIntersection.InMemoryForkNewBlocks i)
      else specScan c hashes (i + 1)
    | _, _ => none
  else none
termination_by hashes.length - i

/-- The decision procedure of spec section 4.3, transcribed from the
spec text (steps 1 to 3), against which the source classifier is
compared. -/
def headersIntersectionSpec (c : Chain) (hashes : List H256) (headers : List Header) : Option HeadersIntersection :=
  match hashes.head?, headers.head?, hashes.getLast? with
  | some h0, some hdr0, some hl =>
    let fk :=
      match c.block_state h0 with
      | BlockState.Unknown => (false, c.block_state hdr0.previous_header_hash)
      | state => (true, state)
    if fk.2 = BlockState.Unknown then
      some (HeadersIntersection.NoKnownBlocks 0)
    else
      match c.block_state hl with
      | BlockState.Stored => some HeadersIntersection.DbAllBlocksKnown
      | BlockState.Unknown =>
        if fk.1 = false then
          if fk.2 = BlockState.Stored then
            some (HeadersIntersection.DbForkNewBlocks 0)
          else if c.best_block.hash = hdr0.previous_header_hash then
            some (HeadersIntersection.InMemoryMainNewBlocks 0)
          else
            some (HeadersIntersection.InMemoryForkNewBlocks 0)
        else specScan c hashes 1
      | _ => some HeadersIntersection.InMemoryNoNewBlocks
  | _, _, _ => none

/-- Source Chain::block_locator_hashes_for_queue, loop body: emit the
hash at the current index of the concatenated queue, double the step
once ten hashes have been emitted, stop when the index would underflow.
The source doubles the step before the comparison, so the comparison and
the decrement are spelled once per branch of the threshold test here.
none models both an out-of-range index (a Rust panic) and a zero step
(under which the Rust loop would not terminate); neither is reachable
from the entry point. -/
def locQueueLoop (concat : List H256) (index step : Nat) (hashes : List H256) : Option (List H256 × Nat × Nat) :=
  if step = 0 then none
  else
    match concat[index]? with
    | none => none
    | some block_hash =>
      let hashes2 := hashes ++ [block_hash]
      if hashes2.length ≥ 10 then
        if index < step * 2 then some (hashes2, step * 2 - index - 1, step * 2)
        else locQueueLoop concat (index - step * 2) (step * 2) hashes2
      else
        if index < step then some (hashes2, step - index - 1, step)
        else locQueueLoop concat (index - step) step hashes2
termination_by index
decreasing_by all_goals omega

/-- Source Chain::block_locator_hashes_for_queue: nothing to do on empty
queues, else walk from the back of the concatenated queue. -/
def Chain.block_locator_hashes_for_queue (c : Chain) (hashes : List H256) : Option (List H256 × Nat × Nat) :=
  let queue_len := c.hash_chain.len
  if queue_len = 0 then some (hashes, 0, 1)
  else locQueueLoop c.hash_chain.concat (queue_len - 1) 1 hashes

/-- Source Chain::block_locator_hashes_for_storage, same loop shape over
the Store; on the final emission the cached genesis hash is appended
when the last emitted storage index is not 0.  none models the panic of
the expect on a missing storage hash and a zero step. -/
def locStorageLoop (storage : Store) (genesis : H256) (index step : Nat) (hashes : List H256) : Option (List H256) :=
  if step = 0 then none
  else
    match storage.block_hash index with
    | none => none
    | some block_hash =>
      let hashes2 := hashes ++ [block_hash]
      if hashes2.length ≥ 10 then
        if index < step * 2 then
          some (if index ≠ 0 then hashes2 ++ [genesis] else hashes2)
        else locStorageLoop storage genesis (index - step * 2) (step * 2) hashes2
      else
        if index < step then
          some (if index ≠ 0 then hashes2 ++ [genesis] else hashes2)
        else locStorageLoop storage genesis (index - step) step hashes2
termination_by index
decreasing_by all_goals omega

/-- Source Chain::block_locator_hashes: the queue phase, then the
storage phase from the storage index left over by the queue phase
(floored at 0), sharing the emission counter and the step. -/
def Chain.block_locator_hashes (c : Chain) : Option (List H256) :=
  match c.block_locator_hashes_for_queue [] with
  | none => none
  | some (hashes, local_index, step) =>
    let storage_index :=
      if c.best_storage_block.number < local_index then 0
      else c.best_storage_block.number - local_index
    locStorageLoop c.storage c.genesis_block_hash storage_index step hashes

/-- A store holding only a genesis block with hash 100; every insertion
succeeds. -/
def wStoreOk : Store := { blocks := [100], insertOutcome := fun _ => none }

/-- A store holding only a genesis block with hash 100; every insertion
fails with storage error 3. -/
def wStoreErr : Store := { blocks := [100], insertOutcome := fun _ => some (DbError.storage 3) }

/-- A header with hash 7 whose parent is the genesis block. -/
def wHeader7 : Header := { hash := 7, previous_header_hash := 100 }

/-- A chain over wStoreOk whose verifying queue holds the single hash 7,
with the matching header in the headers chain. -/
def wChain : Chain :=
  { genesis_block_hash := 100
    best_storage_block := { number := 0, hash := 100 }
    storage := wStoreOk
    hash_chain := { verifying := [7], requested := [], scheduled := [] }
    headers_chain := { headers := [wHeader7] } }

/-- The chain wChain over the failing store instead. -/
def wChainErr : Chain := { wChain with storage := wStoreErr }

/-- Claim C1: the claim says block_hash(number) for number above the
stored tip returns the concatenated-queue element at 0-based offset
number - tip - 1; the code instead passes offset number - tip.  On a
chain with stored tip number 0 and the single queued hash 7 at offset 0,
the code returns none for block_hash(1) although hash 7 sits at height 1:
the code disagrees at that height with its own block_number (which maps
hash 7 to height 1) and with its own best_block (which reports hash 7 as
the block at height 1). -/
theorem block_hash_off_by_one :
    wChain.block_number 7 = some 1 ∧
    wChain.best_block = { number := 1, hash := 7 } ∧
    wChain.hash_chain.concat[0]? = some 7 ∧
    wChain.block_hash 1 = none := by
  refine ⟨rfl, rfl, rfl, rfl⟩

/-- Claim C2: when the Store rejects the block, insert_best_block
returns that very error with the chain (best_storage_block, queues and
headers chain) exactly as before; when the Store accepts it,
insert_best_block refreshes best_storage_block from the best block the
Store now reports and notifies the headers chain with the inserted hash
and the new tip hash, returning Ok. -/
theorem insert_best_block_atomic (c : Chain) (hash : H256) (block : Block) :
    (∀ e, c.storage.insert_block block = Except.error e →
      c.insert_best_block hash block = some (c, Except.error e)) ∧
    (∀ s2, c.storage.insert_block block = Except.ok s2 →
      s2.best_block = some { number := s2.blocks.length - 1, hash := block.hash } ∧
      c.insert_best_block hash block =
        some ({ c with
                  storage := s2
                  best_storage_block := { number := s2.blocks.length - 1, hash := block.hash }
                  headers_chain := c.headers_chain.block_inserted_to_storage hash block.hash },
              Except.ok ())) := by
  constructor
  · intro e he
    simp [Chain.insert_best_block, he]
  · intro s2 hs2
    have hblocks : s2.blocks = c.storage.blocks ++ [block.hash] := by
      unfold Store.insert_block at hs2
      cases ho : c.storage.insertOutcome block with
      | some e => rw [ho] at hs2; exact absurd hs2 (by simp)
      | none =>
        rw [ho] at hs2
        have hs : s2 = { blocks := c.storage.blocks ++ [block.hash], insertOutcome := c.storage.insertOutcome } := by
          exact ((Except.ok.injEq _ _).mp hs2).symm
        rw [hs]
    have hbest : s2.best_block = some { number := s2.blocks.length - 1, hash := block.hash } := by
      unfold Store.best_block
      rw [hblocks]
      simp
    refine ⟨hbest, ?_⟩
    simp only [Chain.insert_best_block, hs2, hbest]

theorem removeFromList_of_not_mem (l : List H256) (h : H256) (hm : h ∉ l) :
    removeFromList l h = (HashPosition.Missing, l) := by
  unfold removeFromList
  have hf : l.findIdx? (fun x => x = h) = none := by
    simp only [List.findIdx?_eq_none_iff, decide_eq_false_iff_not]
    intro x hx he
    exact hm (he ▸ hx)
  rw [hf]

theorem removeFromList_fst_ne_missing (l : List H256) (h : H256) (hm : h ∈ l) :
    (removeFromList l h).1 ≠ HashPosition.Missing := by
  unfold removeFromList
  cases hf : l.findIdx? (fun x => x = h) with
  | none =>
    rw [List.findIdx?_eq_none_iff] at hf
    exact absurd (hf h hm) (by simp)
  | some i =>
    simp only
    split
    · simp
    · split <;> simp

theorem setQueue_verifying (q : HashQueueChain) (l : List H256) :
    q.setQueue VERIFYING_QUEUE l = { q with verifying := l } := by
  simp [HashQueueChain.setQueue, VERIFYING_QUEUE]

theorem setQueue_requested (q : HashQueueChain) (l : List H256) :
    q.setQueue REQUESTED_QUEUE l = { q with requested := l } := by
  simp [HashQueueChain.setQueue, VERIFYING_QUEUE, REQUESTED_QUEUE]

theorem setQueue_scheduled (q : HashQueueChain) (l : List H256) :
    q.setQueue SCHEDULED_QUEUE l = { q with scheduled := l } := by
  simp [HashQueueChain.setQueue, VERIFYING_QUEUE, REQUESTED_QUEUE, SCHEDULED_QUEUE]

theorem queueAt_verifying (q : HashQueueChain) : q.queueAt VERIFYING_QUEUE = q.verifying := by
  simp [HashQueueChain.queueAt, VERIFYING_QUEUE]

theorem queueAt_requested (q : HashQueueChain) : q.queueAt REQUESTED_QUEUE = q.requested := by
  simp [HashQueueChain.queueAt, VERIFYING_QUEUE, REQUESTED_QUEUE]

theorem queueAt_scheduled (q : HashQueueChain) : q.queueAt SCHEDULED_QUEUE = q.scheduled := by
  simp [HashQueueChain.queueAt, VERIFYING_QUEUE, REQUESTED_QUEUE, SCHEDULED_QUEUE]

/-- forget_leave_header written out by cases over which queue holds the
hash; used to settle the claims about forget. -/
theorem forget_leave_header_eq (c : Chain) (h : H256) :
    c.forget_leave_header h =
      if h ∈ c.hash_chain.verifying then
        ({ c with hash_chain := { c.hash_chain with verifying := (removeFromList c.hash_chain.verifying h).2 } },
         (removeFromList c.hash_chain.verifying h).1)
      else if h ∈ c.hash_chain.requested then
        ({ c with hash_chain := { c.hash_chain with requested := (removeFromList c.hash_chain.requested h).2 } },
         (removeFromList c.hash_chain.requested h).1)
      else if h ∈ c.hash_chain.scheduled then
        ({ c with hash_chain := { c.hash_chain with scheduled := (removeFromList c.hash_chain.scheduled h).2 } },
         (removeFromList c.hash_chain.scheduled h).1)
      else (c, HashPosition.Missing) := by
  simp only [Chain.forget_leave_header, HashQueueChain.remove_at,
    queueAt_verifying, queueAt_requested, queueAt_scheduled,
    setQueue_verifying, setQueue_requested, setQueue_scheduled]
  by_cases hv : h ∈ c.hash_chain.verifying
  · simp only [hv, if_true]
    cases hr : (removeFromList c.hash_chain.verifying h).1 with
    | Missing => exact absurd hr (removeFromList_fst_ne_missing _ _ hv)
    | Front => simp [hr]
    | Inside i => simp [hr]
    | Back => simp [hr]
  · rw [removeFromList_of_not_mem _ _ hv]
    simp only [hv, if_false]
    by_cases hrq : h ∈ c.hash_chain.requested
    · simp only [hrq, if_true]
      cases hr : (removeFromList c.hash_chain.requested h).1 with
      | Missing => exact absurd hr (removeFromList_fst_ne_missing _ _ hrq)
      | Front => simp [hr]
      | Inside i => simp [hr]
      | Back => simp [hr]
    · rw [removeFromList_of_not_mem _ _ hrq]
      simp only [hrq, if_false]
      by_cases hs : h ∈ c.hash_chain.scheduled
      · simp only [hs, if_true]
      · rw [removeFromList_of_not_mem _ _ hs]
        simp only [hs, if_false]

/-- Claim C6: forget removes the hash from the first queue that holds it
(searching verifying, then requested, then scheduled), drops its header
exactly when the returned position is not Missing, and for a hash held
by no queue returns Missing leaving the chain untouched. -/
theorem forget_spec (c : Chain) (h : H256) :
    ((c.forget h).2 = HashPosition.Missing ↔
      h ∉ c.hash_chain.verifying ∧ h ∉ c.hash_chain.requested ∧ h ∉ c.hash_chain.scheduled) ∧
    ((c.forget h).2 = HashPosition.Missing → (c.forget h).1 = c) ∧
    ((c.forget h).2 ≠ HashPosition.Missing →
      (c.forget h).1.headers_chain = c.headers_chain.remove h) ∧
    (h ∈ c.hash_chain.verifying →
      (c.forget h).1.hash_chain = { c.hash_chain with verifying := (removeFromList c.hash_chain.verifying h).2 }) ∧
    (h ∉ c.hash_chain.verifying → h ∈ c.hash_chain.requested →
      (c.forget h).1.hash_chain = { c.hash_chain with requested := (removeFromList c.hash_chain.requested h).2 }) ∧
    (h ∉ c.hash_chain.verifying → h ∉ c.hash_chain.requested → h ∈ c.hash_chain.scheduled →
      (c.forget h).1.hash_chain = { c.hash_chain with scheduled := (removeFromList c.hash_chain.scheduled h).2 }) ∧
    (c.forget h).1.storage = c.storage ∧
    (c.forget h).1.best_storage_block = c.best_storage_block ∧
    (c.forget h).1.genesis_block_hash = c.genesis_block_hash := by
  have hfl := forget_leave_header_eq c h
  by_cases hv : h ∈ c.hash_chain.verifying
  · rw [if_pos hv] at hfl
    have hne := removeFromList_fst_ne_missing _ h hv
    have hforget : c.forget h =
        ({ c with
             hash_chain := { c.hash_chain with verifying := (removeFromList c.hash_chain.verifying h).2 }
             headers_chain := c.headers_chain.remove h },
         (removeFromList c.hash_chain.verifying h).1) := by
      unfold Chain.forget
      simp only [hfl]
      rw [if_pos hne]
    rw [hforget]
    refine ⟨⟨fun hmiss => absurd hmiss hne, fun hx => absurd hv hx.1⟩,
      fun hmiss => absurd hmiss hne, fun _ => rfl, fun _ => rfl,
      fun h1 _ => absurd hv h1, fun h1 _ _ => absurd hv h1, rfl, rfl, rfl⟩
  · rw [if_neg hv] at hfl
    by_cases hrq : h ∈ c.hash_chain.requested
    · rw [if_pos hrq] at hfl
      have hne := removeFromList_fst_ne_missing _ h hrq
      have hforget : c.forget h =
          ({ c with
               hash_chain := { c.hash_chain with requested := (removeFromList c.hash_chain.requested h).2 }
               headers_chain := c.headers_chain.remove h },
           (removeFromList c.hash_chain.requested h).1) := by
        unfold Chain.forget
        simp only [hfl]
        rw [if_pos hne]
      rw [hforget]
      refine ⟨⟨fun hmiss => absurd hmiss hne, fun hx => absurd hrq hx.2.1⟩,
        fun hmiss => absurd hmiss hne, fun _ => rfl, fun h1 => absurd h1 hv,
        fun _ _ => rfl, fun _ h2 _ => absurd hrq h2, rfl, rfl, rfl⟩
    · rw [if_neg hrq] at hfl
      by_cases hs : h ∈ c.hash_chain.scheduled
      · rw [if_pos hs] at hfl
        have hne := removeFromList_fst_ne_missing _ h hs
        have hforget : c.forget h =
            ({ c with
                 hash_chain := { c.hash_chain with scheduled := (removeFromList c.hash_chain.scheduled h).2 }
                 headers_chain := c.headers_chain.remove h },
             (removeFromList c.hash_chain.scheduled h).1) := by
          unfold Chain.forget
          simp only [hfl]
          rw [if_pos hne]
        rw [hforget]
        refine ⟨⟨fun hmiss => absurd hmiss hne, fun hx => absurd hs hx.2.2⟩,
          fun hmiss => absurd hmiss hne, fun _ => rfl, fun h1 => absurd h1 hv,
          fun _ h2 => absurd h2 hrq, fun _ _ _ => rfl, rfl, rfl, rfl⟩
      · rw [if_neg hs] at hfl
        have hforget : c.forget h = (c, HashPosition.Missing) := by
          unfold Chain.forget
          simp only [hfl]
          rw [if_neg (fun hc => hc rfl)]
        rw [hforget]
        exact ⟨⟨fun _ => ⟨hv, hrq, hs⟩, fun _ => rfl⟩, fun _ => rfl,
          fun hne2 => absurd rfl hne2, fun h1 => absurd h1 hv,
          fun _ h2 => absurd h2 hrq, fun _ _ h3 => absurd h3 hs, rfl, rfl, rfl⟩

/-- Claim C4: with a non-empty queue, best_block is the last hash of the
concatenated queue sequence at number stored tip + total queue length;
with empty queues it is the stored tip; and the distance from the
virtual tip to the stored tip is always the sum of the three queue
counters of information(). -/
theorem best_block_characterization (c : Chain) :
    (∀ h, c.hash_chain.concat.getLast? = some h →
      c.best_block = BestBlock.mk (c.best_storage_block.number +
        (c.information.verifying + c.information.requested + c.information.scheduled)) h) ∧
    (c.hash_chain.concat = [] → c.best_block = c.best_storage_block) ∧
    c.best_block.number - c.best_storage_block.number =
      c.information.scheduled + c.information.requested + c.information.verifying := by
  have hlen : c.hash_chain.len =
      c.information.verifying + c.information.requested + c.information.scheduled := by
    simp only [HashQueueChain.len, HashQueueChain.concat, Chain.information,
      HashQueueChain.len_of, queueAt_verifying, queueAt_requested, queueAt_scheduled,
      List.length_append]
  refine ⟨?_, ?_, ?_⟩
  · intro h hh
    have hb : c.hash_chain.back = some h := hh
    unfold Chain.best_block
    rw [hb, hlen]
  · intro hnil
    have hb : c.hash_chain.back = none := by
      show c.hash_chain.concat.getLast? = none
      rw [hnil]
      rfl
    unfold Chain.best_block
    rw [hb]
  · unfold Chain.best_block
    cases hb : c.hash_chain.back with
    | some hsh =>
      simp only
      rw [hlen]
      omega
    | none =>
      simp only
      have hnil : c.hash_chain.concat = [] := by
        have hg : c.hash_chain.concat.getLast? = none := hb
        exact List.getLast?_eq_none_iff.mp hg
      have h0 : c.information.verifying + c.information.requested + c.information.scheduled = 0 := by
        rw [← hlen]
        simp [HashQueueChain.len, hnil]
      omega

/-- Witness for best_block_characterization at the concrete chain wChain
(single verifying hash 7 over a stored tip at height 0). -/
theorem best_block_characterization_witness :
    wChain.best_block = BestBlock.mk (wChain.best_storage_block.number +
      (wChain.information.verifying + wChain.information.requested + wChain.information.scheduled)) 7 :=
  (best_block_characterization wChain).1 7 rfl

/-- Witness for insert_best_block_atomic: the failing store leaves the
chain untouched and surfaces the error; the accepting store yields the
refreshed tip and the notified headers chain. -/
theorem insert_best_block_atomic_witness :
    wChainErr.insert_best_block 9 { hash := 9 } = some (wChainErr, Except.error (DbError.storage 3)) ∧
    wChain.insert_best_block 9 { hash := 9 } =
      some ({ wChain with
                storage := { blocks := [100, 9], insertOutcome := wStoreOk.insertOutcome }
                best_storage_block := { number := 1, hash := 9 }
                headers_chain := wChain.headers_chain.block_inserted_to_storage 9 9 },
            Except.ok ()) := by
  constructor
  · exact (insert_best_block_atomic wChainErr 9 { hash := 9 }).1 (DbError.storage 3) rfl
  · exact ((insert_best_block_atomic wChain 9 { hash := 9 }).2
      { blocks := [100, 9], insertOutcome := wStoreOk.insertOutcome } rfl).2

/-- Witness for forget_spec at wChain: hash 7 sits in the verifying
queue, so forgetting it is not Missing and drops its header; hash 8 is
nowhere, so forgetting it is Missing and changes nothing. -/
theorem forget_spec_witness :
    (wChain.forget 7).1.hash_chain =
      { wChain.hash_chain with verifying := (removeFromList wChain.hash_chain.verifying 7).2 } ∧
    (wChain.forget 8).1 = wChain := by
  constructor
  · exact (forget_spec wChain 7).2.2.2.1 (by decide)
  · exact (forget_spec wChain 8).2.1 (by decide)

theorem contains_in_eq_none_iff (q : HashQueueChain) (h : H256) :
    q.contains_in h = none ↔ h ∉ q.concat := by
  unfold HashQueueChain.contains_in HashQueueChain.concat
  by_cases hv : h ∈ q.verifying
  · simp [hv]
  · by_cases hr : h ∈ q.requested
    · simp [hv, hr]
    · by_cases hs : h ∈ q.scheduled
      · simp [hv, hr, hs]
      · simp [hv, hr, hs]

theorem contains_in_isSome_iff (q : HashQueueChain) (h : H256) :
    (q.contains_in h).isSome ↔ h ∈ q.concat := by
  constructor
  · intro hi
    by_contra hm
    rw [(contains_in_eq_none_iff q h).mpr hm] at hi
    exact absurd hi (by simp)
  · intro hm
    cases hq : q.contains_in h with
    | some i => simp
    | none => exact absurd hm ((contains_in_eq_none_iff q h).mp hq)

theorem block_state_of_mem (c : Chain) (h : H256) (hm : h ∈ c.hash_chain.concat) :
    c.block_state h ≠ BlockState.Stored ∧ c.block_state h ≠ BlockState.Unknown := by
  have hm2 : h ∈ c.hash_chain.verifying ∨ h ∈ c.hash_chain.requested ∨ h ∈ c.hash_chain.scheduled := by
    simpa [HashQueueChain.concat, List.mem_append, or_assoc] using hm
  by_cases hv : h ∈ c.hash_chain.verifying
  · have hci : c.hash_chain.contains_in h = some VERIFYING_QUEUE := by
      unfold HashQueueChain.contains_in
      rw [if_pos hv]
    unfold Chain.block_state
    rw [hci]
    exact ⟨(fun hx => nomatch hx), (fun hx => nomatch hx)⟩
  · by_cases hr : h ∈ c.hash_chain.requested
    · have hci : c.hash_chain.contains_in h = some REQUESTED_QUEUE := by
        unfold HashQueueChain.contains_in
        rw [if_neg hv, if_pos hr]
      unfold Chain.block_state
      rw [hci]
      exact ⟨(fun hx => nomatch hx), (fun hx => nomatch hx)⟩
    · have hs : h ∈ c.hash_chain.scheduled := by tauto
      have hci : c.hash_chain.contains_in h = some SCHEDULED_QUEUE := by
        unfold HashQueueChain.contains_in
        rw [if_neg hv, if_neg hr, if_pos hs]
      unfold Chain.block_state
      rw [hci]
      exact ⟨(fun hx => nomatch hx), (fun hx => nomatch hx)⟩

theorem block_state_of_not_mem (c : Chain) (h : H256) (hm : h ∉ c.hash_chain.concat) :
    c.block_state h = (if c.storage.contains_block h then BlockState.Stored else BlockState.Unknown) := by
  unfold Chain.block_state
  rw [(contains_in_eq_none_iff c.hash_chain h).mpr hm]

theorem request_hash_chain (c : Chain) (n : Nat) :
    (c.request_blocks_hashes n).1.hash_chain =
      { verifying := c.hash_chain.verifying
        requested := c.hash_chain.requested ++ c.hash_chain.scheduled.take n
        scheduled := c.hash_chain.scheduled.drop n } := by
  simp only [Chain.request_blocks_hashes, HashQueueChain.pop_front_n_at,
    HashQueueChain.push_back_n_at, queueAt_scheduled, setQueue_scheduled]
  rw [show ∀ q : HashQueueChain, ∀ l l2, (HashQueueChain.mk q.verifying q.requested l).setQueue REQUESTED_QUEUE l2 = HashQueueChain.mk q.verifying l2 l from fun q l l2 => by simp [HashQueueChain.setQueue, VERIFYING_QUEUE, REQUESTED_QUEUE]]
  simp [HashQueueChain.queueAt, REQUESTED_QUEUE, VERIFYING_QUEUE]

theorem request_concat (c : Chain) (n : Nat) :
    (c.request_blocks_hashes n).1.hash_chain.concat = c.hash_chain.concat := by
  rw [request_hash_chain]
  simp [HashQueueChain.concat, List.append_assoc, List.take_append_drop]

/-- Claim C9: request_blocks_hashes only moves the boundary between the
requested and scheduled segments, leaving the concatenated queue
sequence unchanged; hence best_block, block_hash at every height,
being-in-some-queue (equivalently, block_state being Stored and being
Unknown), and block_locator_hashes all give the same answers before and
after the call, and the other Chain fields are untouched. -/
theorem request_blocks_hashes_frame (c : Chain) (n : Nat) :
    (c.request_blocks_hashes n).1.hash_chain.concat = c.hash_chain.concat ∧
    (c.request_blocks_hashes n).1.best_block = c.best_block ∧
    (∀ number, (c.request_blocks_hashes n).1.block_hash number = c.block_hash number) ∧
    (∀ h, ((c.request_blocks_hashes n).1.hash_chain.contains_in h).isSome =
      (c.hash_chain.contains_in h).isSome) ∧
    (∀ h, ((c.request_blocks_hashes n).1.block_state h = BlockState.Stored ↔
        c.block_state h = BlockState.Stored) ∧
      ((c.request_blocks_hashes n).1.block_state h = BlockState.Unknown ↔
        c.block_state h = BlockState.Unknown)) ∧
    (c.request_blocks_hashes n).1.block_locator_hashes = c.block_locator_hashes ∧
    (c.request_blocks_hashes n).1.storage = c.storage ∧
    (c.request_blocks_hashes n).1.best_storage_block = c.best_storage_block ∧
    (c.request_blocks_hashes n).1.headers_chain = c.headers_chain ∧
    (c.request_blocks_hashes n).1.genesis_block_hash = c.genesis_block_hash := by
  have hcc := request_concat c n
  have hback : (c.request_blocks_hashes n).1.hash_chain.back = c.hash_chain.back := by
    unfold HashQueueChain.back
    rw [hcc]
  have hlen : (c.request_blocks_hashes n).1.hash_chain.len = c.hash_chain.len := by
    unfold HashQueueChain.len
    rw [hcc]
  refine ⟨hcc, ?_, ?_, ?_, ?_, ?_, rfl, rfl, rfl, rfl⟩
  · unfold Chain.best_block
    rw [hback, hlen]
    rfl
  · intro number
    unfold Chain.block_hash HashQueueChain.atIndex
    rw [hcc]
    rfl
  · intro h
    rw [Bool.eq_iff_iff, contains_in_isSome_iff, contains_in_isSome_iff, hcc]
  · intro h
    by_cases hm : h ∈ c.hash_chain.concat
    · have h1 := block_state_of_mem c h hm
      have h2 := block_state_of_mem (c.request_blocks_hashes n).1 h (by rw [hcc]; exact hm)
      constructor
      · exact ⟨fun hx => absurd hx h2.1, fun hx => absurd hx h1.1⟩
      · exact ⟨fun hx => absurd hx h2.2, fun hx => absurd hx h1.2⟩
    · have h1 := block_state_of_not_mem c h hm
      have h2 := block_state_of_not_mem (c.request_blocks_hashes n).1 h (by rw [hcc]; exact hm)
      rw [h1, h2]
      exact ⟨Iff.rfl, Iff.rfl⟩
  · have hfq : (c.request_blocks_hashes n).1.block_locator_hashes_for_queue [] =
        c.block_locator_hashes_for_queue [] := by
      unfold Chain.block_locator_hashes_for_queue
      rw [hlen, hcc]
    unfold Chain.block_locator_hashes
    rw [hfq]
    rfl

/-- Witness for request_blocks_hashes_frame at wChain with n = 1 (the
scheduled queue is empty, so the move is trivial but the frame facts are
concrete). -/
theorem request_blocks_hashes_frame_witness :
    (wChain.request_blocks_hashes 1).1.best_block = wChain.best_block ∧
    (wChain.request_blocks_hashes 1).1.block_hash 0 = wChain.block_hash 0 :=
  ⟨(request_blocks_hashes_frame wChain 1).2.1,
   (request_blocks_hashes_frame wChain 1).2.2.1 0⟩

theorem intersectScan_eq_specScan (c : Chain) (hashes : List H256) :
    ∀ n i prev, hashes.length ≤ i + n → 1 ≤ i →
      (∀ hp, hashes[i - 1]? = some hp → prev = c.block_state hp) →
      c.intersectScan hashes i prev = specScan c hashes i := by
  intro n
  induction n with
  | zero =>
    intro i prev hle h1 hprev
    unfold Chain.intersectScan specScan
    rw [dif_neg (by omega), dif_neg (by omega)]
  | succ n ih =>
    intro i prev hle h1 hprev
    by_cases hlt : i < hashes.length
    · unfold Chain.intersectScan specScan
      rw [dif_pos hlt, dif_pos hlt]
      have him : i - 1 < hashes.length := by omega
      have hcur : hashes[i]? = some (hashes.get ⟨i, hlt⟩) := List.getElem?_eq_getElem hlt
      have hpr : hashes[i - 1]? = some (hashes.get ⟨i - 1, him⟩) := List.getElem?_eq_getElem him
      rw [hcur, hpr]
      simp only
      have hpe : prev = c.block_state (hashes.get ⟨i - 1, him⟩) := hprev _ hpr
      by_cases hu : c.block_state (hashes.get ⟨i, hlt⟩) = BlockState.Unknown
      · rw [if_pos hu, if_pos hu, hpe]
      · rw [if_neg hu, if_neg hu]
        exact ih (i + 1) _ (by omega) (by omega)
          (fun hp hhp => by
            have : hashes[i]? = some hp := by simpa using hhp
            rw [hcur] at this
            exact congrArg c.block_state (Option.some.injEq _ _ |>.mp this))
    · unfold Chain.intersectScan specScan
      rw [dif_neg hlt, dif_neg hlt]

theorem intersectScan_isSome (c : Chain) (hashes : List H256) :
    ∀ n i prev, hashes.length ≤ i + n →
      (∃ j hsh, i ≤ j ∧ hashes[j]? = some hsh ∧ c.block_state hsh = BlockState.Unknown) →
      (c.intersectScan hashes i prev).isSome := by
  intro n
  induction n with
  | zero =>
    intro i prev hle hex
    obtain ⟨j, hsh, hij, hj, hju⟩ := hex
    have := (List.getElem?_eq_some.mp hj).1
    omega
  | succ n ih =>
    intro i prev hle hex
    obtain ⟨j, hsh, hij, hj, hju⟩ := hex
    have hjl := (List.getElem?_eq_some.mp hj).1
    have hlt : i < hashes.length := by omega
    unfold Chain.intersectScan
    rw [dif_pos hlt]
    have hcur : hashes[i]? = some (hashes.get ⟨i, hlt⟩) := List.getElem?_eq_getElem hlt
    have him : i - 1 < hashes.length := by omega
    have hpr : hashes[i - 1]? = some (hashes.get ⟨i - 1, him⟩) := List.getElem?_eq_getElem him
    rw [hcur, hpr]
    simp only
    by_cases hu : c.block_state (hashes.get ⟨i, hlt⟩) = BlockState.Unknown
    · rw [if_pos hu]
      by_cases hst : prev = BlockState.Stored
      · rw [if_pos hst]; simp
      · rw [if_neg hst]
        by_cases hbb : c.best_block.hash = hashes.get ⟨i - 1, him⟩
        · rw [if_pos hbb]; simp
        · rw [if_neg hbb]; simp
    · rw [if_neg hu]
      refine ih (i + 1) _ (by omega) ⟨j, hsh, ?_, hj, hju⟩
      rcases Nat.lt_or_ge i j with hij2 | hij2
      · omega
      · have hji : j = i := by omega
        subst hji
        rw [hcur] at hj
        have : hsh = hashes.get ⟨j, hlt⟩ := (Option.some.injEq _ _).mp hj.symm
        rw [this] at hju
        exact absurd hju hu

/-- Claim C3: under the stated preconditions (non-empty inputs of equal
length, parent-linked headers, hashes matching the header hashes) the
source classifier returns exactly the verdict of the decision procedure
of spec section 4.3. -/
theorem intersect_with_headers_matches_spec (c : Chain) (hashes : List H256) (headers : List Header)
    (hne : hashes ≠ []) (hlen : hashes.length = headers.length)
    (hlink : List.Chain' (fun x y => y.previous_header_hash = x.hash) headers)
    (hmap : hashes = headers.map Header.hash) :
    c.intersect_with_headers hashes headers = headersIntersectionSpec c hashes headers := by
  cases hashes with
  | nil => exact absurd rfl hne
  | cons a as =>
    cases headers with
    | nil => simp at hlen
    | cons b bs =>
      have hlast : (a :: as).getLast? = some ((a :: as).getLast (by simp)) :=
        List.getLast?_eq_getLast _ _
      unfold Chain.intersect_with_headers headersIntersectionSpec
      rw [if_pos ⟨by simp, hlen⟩]
      simp only [List.head?_cons, hlast]
      cases hstA : c.block_state a
      case Unknown =>
        simp only [hstA]
        rfl
      all_goals (
        simp only [hstA]
        cases hstL : c.block_state ((a :: as).getLast (by simp))
        case Unknown =>
          simp only [hstL]
          exact intersectScan_eq_specScan c (a :: as) (a :: as).length 1 _
            (by omega) (by omega)
            (fun hp hhp => by
              have h0 : (a :: as)[1 - 1]? = some a := by norm_num
              rw [h0] at hhp
              have ha := (Option.some.injEq _ _).mp hhp
              rw [← ha]
              exact hstA.symm)
        all_goals simp only [hstL])

/-- Claim C8: under the intersect_with_headers preconditions the
classifier always returns a verdict: the scan of the first-known /
last-unknown branch always meets an Unknown hash (the last one at the
latest), so the stated-unreachable arm after the loop is never
executed. -/
theorem intersect_with_headers_total (c : Chain) (hashes : List H256) (headers : List Header)
    (hne : hashes ≠ []) (hlen : hashes.length = headers.length)
    (hlink : List.Chain' (fun x y => y.previous_header_hash = x.hash) headers)
    (hmap : hashes = headers.map Header.hash) :
    (c.intersect_with_headers hashes headers).isSome = true := by
  cases hashes with
  | nil => exact absurd rfl hne
  | cons a as =>
    cases headers with
    | nil => simp at hlen
    | cons b bs =>
      have hlast : (a :: as).getLast? = some ((a :: as).getLast (by simp)) :=
        List.getLast?_eq_getLast _ _
      unfold Chain.intersect_with_headers
      rw [if_pos ⟨by simp, hlen⟩]
      simp only [List.head?_cons, hlast]
      cases hstA : c.block_state a
      case Unknown =>
        simp only [hstA]
        by_cases hX : c.block_state b.previous_header_hash = BlockState.Unknown
        · rw [if_pos hX]
          rfl
        · rw [if_neg hX]
          cases hstL : c.block_state ((a :: as).getLast (by simp)) <;>
            simp only [hstL] <;>
            first
              | rfl
              | (rw [if_pos trivial]; split_ifs <;> rfl)
      all_goals (
        simp only [hstA]
        cases hstL : c.block_state ((a :: as).getLast (by simp))
        case Unknown =>
          simp only [hstL]
          rw [if_neg (by decide)]
          have hlen2 : 2 ≤ (a :: as).length := by
            cases as with
            | nil =>
              have hga : (a :: ([] : List H256)).getLast (by simp) = a := rfl
              rw [hga, hstA] at hstL
              exact absurd hstL (by decide)
            | cons x xs => simp [List.length_cons]
          apply intersectScan_isSome c (a :: as) (a :: as).length 1 _ (by omega)
          refine ⟨(a :: as).length - 1, (a :: as).getLast (by simp), by omega, ?_, hstL⟩
          rw [← List.getLast?_eq_getElem?]
          exact hlast
        all_goals (simp only [hstL]; rfl))

/-- Witness for intersect_with_headers_matches_spec: a singleton
inventory whose parent is the stored genesis block (verdict
DbForkNewBlocks 0 on both sides).  Hash 8 is unknown to wChain. -/
theorem intersect_with_headers_matches_spec_witness :
    wChain.intersect_with_headers [8] [{ hash := 8, previous_header_hash := 100 }] =
      headersIntersectionSpec wChain [8] [{ hash := 8, previous_header_hash := 100 }] :=
  intersect_with_headers_matches_spec wChain [8] [{ hash := 8, previous_header_hash := 100 }]
    (by simp) rfl (by simp) rfl

/-- Witness for intersect_with_headers_total on the first-known /
last-unknown scan branch: hash 7 is in the verifying queue and hash 8 is
unknown, so the scan runs and returns a verdict. -/
theorem intersect_with_headers_total_witness :
    (wChain.intersect_with_headers [7, 8]
      [wHeader7, { hash := 8, previous_header_hash := 7 }]).isSome = true :=
  intersect_with_headers_total wChain [7, 8] [wHeader7, { hash := 8, previous_header_hash := 7 }]
    (by simp) rfl (by simp [wHeader7]) rfl

theorem locStorageLoop_eq (storage : Store) (genesis : H256) (index step : Nat)
    (hashes : List H256) (bh : H256)
    (hs : ¬ step = 0) (hbh : storage.block_hash index = some bh) :
    locStorageLoop storage genesis index step hashes =
      (let hashes2 := hashes ++ [bh]
       let step2 := if hashes2.length ≥ 10 then step * 2 else step
       if index < step2 then some (if index ≠ 0 then hashes2 ++ [genesis] else hashes2)
       else locStorageLoop storage genesis (index - step2) step2 hashes2) := by
  conv_lhs => unfold locStorageLoop
  rw [if_neg hs, hbh]
  by_cases h10 : (hashes ++ [bh]).length ≥ 10
  · simp only [h10, if_true]
  · simp only [h10, if_false]

theorem locQueueLoop_eq (concat : List H256) (index step : Nat)
    (hashes : List H256) (bh : H256)
    (hs : ¬ step = 0) (hbh : concat[index]? = some bh) :
    locQueueLoop concat index step hashes =
      (let hashes2 := hashes ++ [bh]
       let step2 := if hashes2.length ≥ 10 then step * 2 else step
       if index < step2 then some (hashes2, step2 - index - 1, step2)
       else locQueueLoop concat (index - step2) step2 hashes2) := by
  conv_lhs => unfold locQueueLoop
  rw [if_neg hs, hbh]
  by_cases h10 : (hashes ++ [bh]).length ≥ 10
  · simp only [h10, if_true]
  · simp only [h10, if_false]

theorem locStorageLoop_spec (storage : Store) (genesis : H256) (bestNum : Nat)
    (hcov : ∀ n, n ≤ bestNum → (storage.block_hash n).isSome = true) :
    ∀ fuel index step hashes, index ≤ bestNum → index ≤ fuel → 0 < step →
      ∃ tail, locStorageLoop storage genesis index step hashes = some (hashes ++ tail) ∧
        tail.head? = storage.block_hash index ∧
        (storage.block_hash 0 = some genesis → tail.getLast? = some genesis) := by
  intro fuel
  induction fuel with
  | zero =>
    intro index step hashes hib hif hs
    have hi0 : index = 0 := by omega
    subst hi0
    obtain ⟨bh, hbh⟩ := Option.isSome_iff_exists.mp (hcov 0 (by omega))
    rw [locStorageLoop_eq storage genesis 0 step hashes bh (by omega) hbh]
    simp only
    rw [if_pos (by split <;> omega)]
    rw [if_neg (by omega)]
    refine ⟨[bh], rfl, by simp [hbh], ?_⟩
    intro hg
    rw [hbh] at hg
    have : bh = genesis := by injection hg
    simp [this]
  | succ fuel ih =>
    intro index step hashes hib hif hs
    obtain ⟨bh, hbh⟩ := Option.isSome_iff_exists.mp (hcov index hib)
    rw [locStorageLoop_eq storage genesis index step hashes bh (by omega) hbh]
    simp only
    set step2 := if (hashes ++ [bh]).length ≥ 10 then step * 2 else step with hstep2def
    have hs2 : 0 < step2 := by rw [hstep2def]; split <;> omega
    by_cases hstop : index < step2
    · rw [if_pos hstop]
      by_cases hz : index ≠ 0
      · rw [if_pos hz]
        refine ⟨[bh, genesis], by simp, by simp [hbh], fun _ => by simp⟩
      · rw [if_neg hz]
        have hi0 : index = 0 := by omega
        subst hi0
        refine ⟨[bh], rfl, by simp [hbh], ?_⟩
        intro hg
        rw [hbh] at hg
        have : bh = genesis := by injection hg
        simp [this]
    · rw [if_neg hstop]
      obtain ⟨tail2, heq, hhead, hlast⟩ := ih (index - step2) step2 (hashes ++ [bh])
        (by omega) (by omega) hs2
      have htail2ne : tail2 ≠ [] := by
        intro hnil
        rw [hnil] at hhead
        have hc := hcov (index - step2) (by omega)
        rw [← hhead] at hc
        simp at hc
      refine ⟨bh :: tail2, ?_, by simp [hbh], ?_⟩
      · rw [heq]
        simp
      · intro hg
        have h2 := hlast hg
        cases tail2 with
        | nil => exact absurd rfl htail2ne
        | cons t ts =>
          rw [List.getLast?_cons_cons]
          exact h2

theorem locQueueLoop_spec (concat : List H256) :
    ∀ fuel index step hashes, index < concat.length → index ≤ fuel → 0 < step →
      ∃ tail li st, locQueueLoop concat index step hashes = some (hashes ++ tail, li, st) ∧
        tail.head? = concat[index]? ∧ 0 < st := by
  intro fuel
  induction fuel with
  | zero =>
    intro index step hashes hil hif hs
    have hi0 : index = 0 := by omega
    subst hi0
    have hsome : (concat[0]?).isSome = true := by
      rw [List.getElem?_eq_getElem hil]
      rfl
    obtain ⟨bh, hbh⟩ := Option.isSome_iff_exists.mp hsome
    rw [locQueueLoop_eq concat 0 step hashes bh (by omega) hbh]
    simp only
    rw [if_pos (by split <;> omega)]
    exact ⟨[bh], _, _, rfl, by simp [hbh], by split <;> omega⟩
  | succ fuel ih =>
    intro index step hashes hil hif hs
    have hsome : (concat[index]?).isSome = true := by
      rw [List.getElem?_eq_getElem hil]
      rfl
    obtain ⟨bh, hbh⟩ := Option.isSome_iff_exists.mp hsome
    rw [locQueueLoop_eq concat index step hashes bh (by omega) hbh]
    simp only
    set step2 := if (hashes ++ [bh]).length ≥ 10 then step * 2 else step with hstep2def
    have hs2 : 0 < step2 := by rw [hstep2def]; split <;> omega
    by_cases hstop : index < step2
    · rw [if_pos hstop]
      exact ⟨[bh], _, _, rfl, by simp [hbh], hs2⟩
    · rw [if_neg hstop]
      obtain ⟨tail2, li, st, heq, hhead, hst⟩ := ih (index - step2) step2 (hashes ++ [bh])
        (by omega) (by omega) hs2
      refine ⟨bh :: tail2, li, st, ?_, by simp [hbh], hst⟩
      rw [heq]
      simp

theorem locator_shape (c : Chain)
    (hcov : ∀ n, n ≤ c.best_storage_block.number → (c.storage.block_hash n).isSome = true) :
    ∃ l, c.block_locator_hashes = some l ∧
      l.head? = (if c.hash_chain.len = 0 then c.storage.block_hash c.best_storage_block.number
                 else c.hash_chain.concat[c.hash_chain.len - 1]?) ∧
      (c.storage.block_hash 0 = some c.genesis_block_hash →
        l.getLast? = some c.genesis_block_hash) := by
  by_cases hq : c.hash_chain.len = 0
  · have hfq : c.block_locator_hashes_for_queue [] = some ([], 0, 1) := by
      simp [Chain.block_locator_hashes_for_queue, hq]
    obtain ⟨tail, heq, hhead, hlastg⟩ := locStorageLoop_spec c.storage c.genesis_block_hash
      c.best_storage_block.number hcov c.best_storage_block.number c.best_storage_block.number
      1 [] (le_refl _) (le_refl _) (by omega)
    have hsi : (if c.best_storage_block.number < 0 then 0 else c.best_storage_block.number - 0) =
        c.best_storage_block.number := by simp
    refine ⟨tail, ?_, ?_, hlastg⟩
    · unfold Chain.block_locator_hashes
      rw [hfq]
      simp only
      rw [hsi, heq]
      simp
    · rw [if_pos hq]
      exact hhead
  · have hl : c.hash_chain.len = c.hash_chain.concat.length := rfl
    have hlen0 : 0 < c.hash_chain.len := Nat.pos_of_ne_zero hq
    have hil : c.hash_chain.len - 1 < c.hash_chain.concat.length := by omega
    obtain ⟨tailq, li, st, heqq, hheadq, hst⟩ := locQueueLoop_spec c.hash_chain.concat
      (c.hash_chain.len - 1) (c.hash_chain.len - 1) 1 [] hil (le_refl _) (by omega)
    have hfq : c.block_locator_hashes_for_queue [] = some ([] ++ tailq, li, st) := by
      unfold Chain.block_locator_hashes_for_queue
      rw [if_neg hq]
      exact heqq
    obtain ⟨tails, heqs, hheads, hlastgs⟩ := locStorageLoop_spec c.storage c.genesis_block_hash
      c.best_storage_block.number hcov c.best_storage_block.number
      (if c.best_storage_block.number < li then 0 else c.best_storage_block.number - li)
      st ([] ++ tailq) (by split <;> omega) (by split <;> omega) hst
    have htailqne : tailq ≠ [] := by
      intro hnil
      rw [hnil] at hheadq
      have hcq : (c.hash_chain.concat[c.hash_chain.len - 1]?).isSome = true := by
        rw [List.getElem?_eq_getElem hil]
        rfl
      rw [← hheadq] at hcq
      simp at hcq
    have htailsne : tails ≠ [] := by
      intro hnil
      rw [hnil] at hheads
      have hcs := hcov (if c.best_storage_block.number < li then 0
        else c.best_storage_block.number - li) (by split <;> omega)
      rw [← hheads] at hcs
      simp at hcs
    refine ⟨tailq ++ tails, ?_, ?_, ?_⟩
    · unfold Chain.block_locator_hashes
      rw [hfq]
      simp only
      rw [heqs]
      simp
    · rw [if_neg hq]
      cases tailq with
      | nil => exact absurd rfl htailqne
      | cons t ts => simpa using hheadq
    · intro hg
      rw [List.getLast?_append_of_ne_nil tailq htailsne]
      exact hlastgs hg

/-- Claim C10: when the Store holds a hash at every height up to the
stored tip, block_locator_hashes neither panics nor loops: both loops
terminate with a result (isSome) and the storage index handed from the
queue phase to the storage phase is at most the stored tip (floored at
0), so every Store lookup of the storage phase succeeds. -/
theorem block_locator_hashes_no_panic (c : Chain)
    (hcov : ∀ n, n ≤ c.best_storage_block.number → (c.storage.block_hash n).isSome = true) :
    (c.block_locator_hashes).isSome = true ∧
    (∀ hs li st, c.block_locator_hashes_for_queue [] = some (hs, li, st) →
      (if c.best_storage_block.number < li then 0 else c.best_storage_block.number - li) ≤
        c.best_storage_block.number) := by
  constructor
  · obtain ⟨l, heq, -, -⟩ := locator_shape c hcov
    rw [heq]
    rfl
  · intro hs li st heq
    split <;> omega

/-- Claim C5: for a Chain whose Store covers every height up to the
stored tip (and whose cached tip and genesis hashes mirror the Store, as
construction guarantees), the locator starts at best_block().hash and
ends at the genesis hash, the whole list being [genesis] when the
virtual best block is the genesis block; the genesis hash is appended
explicitly whenever the final storage index is not 0, and equals the
final emission otherwise. -/
theorem block_locator_hashes_endpoints (c : Chain)
    (hcov : ∀ n, n ≤ c.best_storage_block.number → (c.storage.block_hash n).isSome = true)
    (hbest : c.storage.block_hash c.best_storage_block.number = some c.best_storage_block.hash)
    (hgen : c.storage.block_hash 0 = some c.genesis_block_hash) :
    ∃ l, c.block_locator_hashes = some l ∧
      l.head? = some c.best_block.hash ∧
      l.getLast? = some c.genesis_block_hash ∧
      (c.hash_chain.len = 0 → c.best_storage_block.number = 0 →
        l = [c.genesis_block_hash]) := by
  obtain ⟨l, heq, hhead, hlast⟩ := locator_shape c hcov
  refine ⟨l, heq, ?_, hlast hgen, ?_⟩
  · rw [hhead]
    by_cases hq : c.hash_chain.len = 0
    · rw [if_pos hq, hbest]
      have hl : c.hash_chain.len = c.hash_chain.concat.length := rfl
      have hnil : c.hash_chain.concat = [] := List.length_eq_zero.mp (by omega)
      have hbk : c.hash_chain.back = none := by
        show c.hash_chain.concat.getLast? = none
        rw [hnil]
        rfl
      unfold Chain.best_block
      rw [hbk]
    · rw [if_neg hq]
      have hl : c.hash_chain.len = c.hash_chain.concat.length := rfl
      have hlen0 : 0 < c.hash_chain.len := Nat.pos_of_ne_zero hq
      have h1 : c.hash_chain.concat[c.hash_chain.len - 1]? = c.hash_chain.concat.getLast? := by
        rw [hl, ← List.getLast?_eq_getElem?]
      cases hbk : c.hash_chain.concat.getLast? with
      | none =>
        have hnil := List.getLast?_eq_none_iff.mp hbk
        rw [hnil] at hl
        simp at hl
        omega
      | some hb0 =>
        rw [h1, hbk]
        have hback : c.hash_chain.back = some hb0 := hbk
        unfold Chain.best_block
        rw [hback]
  · intro hq h0
    have hfq : c.block_locator_hashes_for_queue [] = some ([], 0, 1) := by
      simp [Chain.block_locator_hashes_for_queue, hq]
    have hloc : c.block_locator_hashes = some [c.genesis_block_hash] := by
      unfold Chain.block_locator_hashes
      rw [hfq]
      simp only
      rw [show (if c.best_storage_block.number < 0 then 0
        else c.best_storage_block.number - 0) = 0 from by rw [h0]; simp]
      rw [locStorageLoop_eq c.storage c.genesis_block_hash 0 1 [] c.genesis_block_hash
        (by omega) hgen]
      norm_num
    rw [heq] at hloc
    exact (Option.some.injEq _ _).mp hloc

/-- Witness for block_locator_hashes_no_panic at wChain. -/
theorem block_locator_hashes_no_panic_witness :
    (wChain.block_locator_hashes).isSome = true :=
  (block_locator_hashes_no_panic wChain
    (fun n hn => by
      have hn0 : n ≤ 0 := hn
      rw [Nat.le_zero.mp hn0]
      rfl)).1

/-- Witness for block_locator_hashes_endpoints at wChain, whose locator
is [7, 100]: it starts at the virtual best hash 7 and ends at the
genesis hash 100. -/
theorem block_locator_hashes_endpoints_witness :
    [7, 100].head? = some wChain.best_block.hash ∧
    [7, 100].getLast? = some wChain.genesis_block_hash := by
  obtain ⟨l, heq, hh, hl, -⟩ := block_locator_hashes_endpoints wChain
    (fun n hn => by
      have hn0 : n ≤ 0 := hn
      rw [Nat.le_zero.mp hn0]
      rfl) rfl rfl
  have hval : wChain.block_locator_hashes = some [7, 100] := by
    unfold Chain.block_locator_hashes
    have hfq : wChain.block_locator_hashes_for_queue [] = some ([7], 0, 1) := by
      unfold Chain.block_locator_hashes_for_queue
      rw [if_neg (by decide)]
      rw [show wChain.hash_chain.len - 1 = 0 from rfl]
      rw [locQueueLoop_eq wChain.hash_chain.concat 0 1 [] 7 (by decide) (by decide)]
      norm_num
    rw [hfq]
    simp only
    rw [show (if wChain.best_storage_block.number < 0 then 0
      else wChain.best_storage_block.number - 0) = 0 from by decide]
    rw [locStorageLoop_eq wChain.storage wChain.genesis_block_hash 0 1 [7] 100
      (by decide) (by decide)]
    norm_num
  rw [hval] at heq
  have hleq : [7, 100] = l := by injection heq
  rw [← hleq] at hh hl
  exact ⟨hh, hl⟩

/-- One step of the parent-to-children index: y is a child of x. -/
def childStep (hc : BestHeadersChain) (x y : H256) : Prop :=
  y ∈ hc.children x

/-- y is a transitive descendant of x in the headers chain. -/
def Descend (hc : BestHeadersChain) : H256 → H256 → Prop :=
  Relation.TransGen (childStep hc)

theorem childStep_iff (hc : BestHeadersChain) (x y : H256) :
    childStep hc x y ↔ ∃ hd, hd ∈ hc.headers ∧ hd.previous_header_hash = x ∧ hd.hash = y := by
  unfold childStep BestHeadersChain.children
  simp only [List.mem_map, List.mem_filter, decide_eq_true_eq]
  constructor
  · rintro ⟨hd, ⟨hm, hp⟩, hh⟩
    exact ⟨hd, hm, hp, hh⟩
  · rintro ⟨hd, hm, hp, hh⟩
    exact ⟨hd, ⟨hm, hp⟩, hh⟩

theorem childStep_unique (hc : BestHeadersChain)
    (hnh : (hc.headers.map Header.hash).Nodup) {x1 x2 y : H256}
    (h1 : childStep hc x1 y) (h2 : childStep hc x2 y) : x1 = x2 := by
  obtain ⟨hd1, hm1, hp1, hh1⟩ := (childStep_iff hc x1 y).mp h1
  obtain ⟨hd2, hm2, hp2, hh2⟩ := (childStep_iff hc x2 y).mp h2
  have heq : hd1 = hd2 := List.inj_on_of_nodup_map hnh hm1 hm2 (by rw [hh1, hh2])
  rw [← hp1, ← hp2, heq]

theorem children_nodup (hc : BestHeadersChain)
    (hnh : (hc.headers.map Header.hash).Nodup) (x : H256) : (hc.children x).Nodup :=
  hnh.sublist ((List.filter_sublist hc.headers).map Header.hash)

/-- If some queued hash can reach a hash lying on a cycle, the discovery
loop never drains its queue: it runs out of fuel and returns none. -/
theorem discoverLoop_cycle_none (hc : BestHeadersChain) (x : H256)
    (hcyc : Descend hc x x) :
    ∀ fuel queue stack, (∃ z ∈ queue, Relation.ReflTransGen (childStep hc) z x) →
      discoverLoop hc fuel queue stack = none := by
  intro fuel
  induction fuel with
  | zero =>
    rintro queue stack ⟨z, hz, hzx⟩
    cases queue with
    | nil => simp at hz
    | cons a rest => rfl
  | succ fuel ih =>
    rintro queue stack ⟨z, hz, hzx⟩
    cases queue with
    | nil => simp at hz
    | cons a rest =>
      show discoverLoop hc fuel (rest ++ hc.children a) (stack ++ [a]) = none
      rcases List.mem_cons.mp hz with hza | hzr
      · subst hza
        rcases Relation.ReflTransGen.cases_head hzx with hzx0 | ⟨y, hzy, hyx⟩
        · subst hzx0
          obtain ⟨y, hxy, hyx⟩ := Relation.TransGen.head'_iff.mp hcyc
          exact ih _ _ ⟨y, by simp only [List.mem_append]; exact Or.inr hxy, hyx⟩
        · exact ih _ _ ⟨y, by simp only [List.mem_append]; exact Or.inr hzy, hyx⟩
      · exact ih _ _ ⟨z, by simp [hzr], hzx⟩

theorem discover_prefix (hc : BestHeadersChain) :
    ∀ fuel queue stack out, discoverLoop hc fuel queue stack = some out →
      ∃ ext, out = stack ++ ext := by
  intro fuel
  induction fuel with
  | zero =>
    intro queue stack out heq
    cases queue with
    | nil =>
      have hso : stack = out := by injection heq
      exact ⟨[], by rw [← hso]; simp⟩
    | cons a rest => exact Option.noConfusion heq
  | succ fuel ih =>
    intro queue stack out heq
    cases queue with
    | nil =>
      have hso : stack = out := by injection heq
      exact ⟨[], by rw [← hso]; simp⟩
    | cons a rest =>
      obtain ⟨ext, hext⟩ := ih _ _ _ heq
      exact ⟨a :: ext, by rw [hext]; simp⟩

theorem discover_invariant (hc : BestHeadersChain) (root : H256)
    (hnh : (hc.headers.map Header.hash).Nodup) :
    ∀ fuel queue stack out,
      discoverLoop hc fuel queue stack = some out →
      (stack ++ queue).Nodup →
      (∀ x ∈ stack, ∀ y, childStep hc x y → y ∈ stack ++ queue) →
      (∀ y ∈ queue, y = root ∨ ∃ x ∈ stack, childStep hc x y) →
      (∀ y ∈ stack, y = root ∨ ∃ x ∈ stack, childStep hc x y) →
      (∀ z ∈ stack ++ queue, z = root ∨ Descend hc root z) →
      (∃ ext, out = stack ++ ext) ∧
      (∀ z ∈ queue, z ∈ out) ∧
      (∀ x ∈ out, ∀ y, childStep hc x y → y ∈ out) ∧
      (∀ z ∈ out, z = root ∨ Descend hc root z) ∧
      out.Nodup := by
  intro fuel
  induction fuel with
  | zero =>
    intro queue stack out heq hnd hcl hor hsor hsound
    cases queue with
    | nil =>
      have hso : stack = out := by injection heq
      subst hso
      refine ⟨⟨[], by simp⟩, by simp, ?_, ?_, by simpa using hnd⟩
      · intro x hx y hxy
        simpa using hcl x hx y hxy
      · intro z hz
        exact hsound z (by simpa using hz)
    | cons a rest => exact Option.noConfusion heq
  | succ fuel ih =>
    intro queue stack out heq hnd hcl hor hsor hsound
    cases queue with
    | nil =>
      have hso : stack = out := by injection heq
      subst hso
      refine ⟨⟨[], by simp⟩, by simp, ?_, ?_, by simpa using hnd⟩
      · intro x hx y hxy
        simpa using hcl x hx y hxy
      · intro z hz
        exact hsound z (by simpa using hz)
    | cons a rest =>
      have hsome : discoverLoop hc fuel (rest ++ hc.children a) (stack ++ [a]) = some out := heq
      have hcontra : ∀ x : H256, Descend hc x x →
          (∃ z ∈ rest ++ hc.children a, Relation.ReflTransGen (childStep hc) z x) → False := by
        intro x hcyc hex
        have hn := discoverLoop_cycle_none hc x hcyc fuel (rest ++ hc.children a) (stack ++ [a]) hex
        rw [hn] at hsome
        exact Option.noConfusion hsome
      have hdisj : stack.Disjoint (a :: rest) := List.disjoint_of_nodup_append hnd
      have hanotstack : a ∉ stack := fun hs => hdisj hs (by simp)
      have hamem : a = root ∨ Descend hc root a := hsound a (by simp)
      have hrootchild : root ∈ hc.children a → False := by
        intro hrc
        rcases hamem with har | hdes
        · subst har
          exact hcontra a (Relation.TransGen.single hrc)
            ⟨a, by simp only [List.mem_append]; exact Or.inr hrc, Relation.ReflTransGen.refl⟩
        · exact hcontra root (Relation.TransGen.tail hdes hrc)
            ⟨root, by simp only [List.mem_append]; exact Or.inr hrc, Relation.ReflTransGen.refl⟩
      have hselfchild : a ∈ hc.children a → False := by
        intro hac
        exact hcontra a (Relation.TransGen.single hac)
          ⟨a, by simp only [List.mem_append]; exact Or.inr hac, Relation.ReflTransGen.refl⟩
      have hfresh : ∀ y ∈ hc.children a, y ∉ stack ∧ y ≠ a ∧ y ∉ rest := by
        intro y hy
        refine ⟨?_, ?_, ?_⟩
        · intro hys
          rcases hsor y hys with hyr | ⟨x, hxs, hxy⟩
          · subst hyr
            exact hrootchild hy
          · have hxa : x = a := childStep_unique hc hnh hxy hy
            subst hxa
            exact hanotstack hxs
        · intro hya
          subst hya
          exact hselfchild hy
        · intro hyr
          rcases hor y (by simp [hyr]) with hyr2 | ⟨x, hxs, hxy⟩
          · subst hyr2
            exact hrootchild hy
          · have hxa : x = a := childStep_unique hc hnh hxy hy
            subst hxa
            exact hanotstack hxs
      have hnd2 : ((stack ++ [a]) ++ (rest ++ hc.children a)).Nodup := by
        have hrearr : (stack ++ [a]) ++ (rest ++ hc.children a) =
            (stack ++ a :: rest) ++ hc.children a := by simp
        rw [hrearr, List.nodup_append]
        refine ⟨hnd, children_nodup hc hnh a, ?_⟩
        intro y hy hyc
        obtain ⟨hns, hna, hnr⟩ := hfresh y hyc
        rcases List.mem_append.mp hy with hys | hyar
        · exact hns hys
        · rcases List.mem_cons.mp hyar with h1 | h2
          · exact hna h1
          · exact hnr h2
      have hcl2 : ∀ x ∈ stack ++ [a], ∀ y, childStep hc x y →
          y ∈ (stack ++ [a]) ++ (rest ++ hc.children a) := by
        intro x hx y hxy
        rcases List.mem_append.mp hx with hxs | hxa
        · have hmem := hcl x hxs y hxy
          rcases List.mem_append.mp hmem with h1 | h2
          · simp [h1]
          · rcases List.mem_cons.mp h2 with h3 | h4
            · simp [h3]
            · simp [h4]
        · have hxa2 : x = a := by simpa using hxa
          subst hxa2
          simp only [List.mem_append]
          exact Or.inr (Or.inr hxy)
      have hor2 : ∀ y ∈ rest ++ hc.children a, y = root ∨ ∃ x ∈ stack ++ [a], childStep hc x y := by
        intro y hy
        rcases List.mem_append.mp hy with h1 | h2
        · rcases hor y (by simp [h1]) with hr | ⟨x, hxs, hxy⟩
          · exact Or.inl hr
          · exact Or.inr ⟨x, by simp [hxs], hxy⟩
        · exact Or.inr ⟨a, by simp, h2⟩
      have hsor2 : ∀ y ∈ stack ++ [a], y = root ∨ ∃ x ∈ stack ++ [a], childStep hc x y := by
        intro y hy
        rcases List.mem_append.mp hy with h1 | h2
        · rcases hsor y h1 with hr | ⟨x, hxs, hxy⟩
          · exact Or.inl hr
          · exact Or.inr ⟨x, by simp [hxs], hxy⟩
        · have hya : y = a := by simpa using h2
          subst hya
          rcases hor y (by simp) with hr | ⟨x, hxs, hxy⟩
          · exact Or.inl hr
          · exact Or.inr ⟨x, by simp [hxs], hxy⟩
      have hsound2 : ∀ z ∈ (stack ++ [a]) ++ (rest ++ hc.children a),
          z = root ∨ Descend hc root z := by
        intro z hz
        simp only [List.mem_append, List.mem_cons] at hz
        rcases hz with (hzs | hza) | (hzr | hzc)
        · exact hsound z (by simp [hzs])
        · have hza2 : z = a := by simpa using hza
          subst hza2
          exact hamem
        · exact hsound z (by simp [hzr])
        · rcases hamem with har | hdes
          · subst har
            exact Or.inr (Relation.TransGen.single hzc)
          · exact Or.inr (Relation.TransGen.tail hdes hzc)
      obtain ⟨⟨ext, hext⟩, hq2, hclo, hsnd, hnodup⟩ :=
        ih _ _ _ hsome hnd2 hcl2 hor2 hsor2 hsound2
      refine ⟨⟨a :: ext, by rw [hext]; simp⟩, ?_, hclo, hsnd, hnodup⟩
      intro z hz
      rcases List.mem_cons.mp hz with h1 | h2
      · subst h1
        rw [hext]
        simp
      · exact hq2 z (by simp [h2])

theorem discover_origin (hc : BestHeadersChain) :
    ∀ fuel queue stack out, discoverLoop hc fuel queue stack = some out →
      ∀ p, ∀ hp : p < out.length, stack.length ≤ p →
        out.get ⟨p, hp⟩ ∈ queue ∨
        ∃ q, ∃ hq : q < out.length, stack.length ≤ q ∧ q < p ∧
          childStep hc (out.get ⟨q, hq⟩) (out.get ⟨p, hp⟩) := by
  intro fuel
  induction fuel with
  | zero =>
    intro queue stack out heq p hp hsp
    cases queue with
    | nil =>
      have hso : stack = out := by injection heq
      subst hso
      omega
    | cons a rest => exact Option.noConfusion heq
  | succ fuel ih =>
    intro queue stack out heq p hp hsp
    cases queue with
    | nil =>
      have hso : stack = out := by injection heq
      subst hso
      omega
    | cons a rest =>
      have hsome : discoverLoop hc fuel (rest ++ hc.children a) (stack ++ [a]) = some out := heq
      obtain ⟨ext, hext⟩ := discover_prefix hc fuel _ _ _ hsome
      have hlen1 : stack.length < out.length := by omega
      have hgeta : out.get ⟨stack.length, hlen1⟩ = a := by
        have h2 : out[stack.length]? = some a := by
          rw [hext]
          rw [List.getElem?_append, if_pos (by simp)]
          exact List.getElem?_concat_length stack a
        have h3 : out[stack.length]? = some (out.get ⟨stack.length, hlen1⟩) :=
          List.getElem?_eq_getElem hlen1
        rw [h3] at h2
        injection h2
      by_cases hpe : p = stack.length
      · have hfin : (⟨p, hp⟩ : Fin out.length) = ⟨stack.length, hlen1⟩ := Fin.mk_eq_mk.mpr hpe
        rw [hfin, hgeta]
        exact Or.inl (List.mem_cons_self a rest)
      · rcases ih _ _ _ hsome p hp (by simp only [List.length_append, List.length_cons, List.length_nil]; omega)
          with hmem | ⟨q, hq, hq1, hq2, hcs⟩
        · rcases List.mem_append.mp hmem with h1 | h2
          · exact Or.inl (List.mem_cons_of_mem a h1)
          · refine Or.inr ⟨stack.length, hlen1, le_refl _, by omega, ?_⟩
            rw [hgeta]
            exact h2
        · refine Or.inr ⟨q, hq, ?_, hq2, hcs⟩
          simp only [List.length_append, List.length_cons, List.length_nil] at hq1
          omega

/-- Claim C7: forget_with_children discovers the hash and all its
transitive descendants breadth-first over the children index, then
forgets them by folding forget over the reverse discovery order, so the
hash itself (first discovered) is forgotten last, the discovered set is
exactly the hash and its transitive descendants, and a descendant never
comes before its ancestor in the discovery order (hence is always
forgotten before it).  The headers chain is assumed to hold each hash at
most once, as its map-backed implementation guarantees. -/
theorem forget_with_children_spec (c : Chain) (h : H256) (order : List H256)
    (hnh : (c.headers_chain.headers.map Header.hash).Nodup)
    (hd : discoverLoop c.headers_chain c.discoveryFuel [h] [] = some order) :
    c.forget_with_children h =
      some (order.reverse.foldl (fun ch x => (ch.forget x).1) c) ∧
    order.head? = some h ∧
    (∀ x, x ∈ order ↔ (x = h ∨ Descend c.headers_chain h x)) ∧
    (∀ i j, ∀ hi : i < order.length, ∀ hj : j < order.length, i < j →
      ¬ Descend c.headers_chain (order.get ⟨j, hj⟩) (order.get ⟨i, hi⟩)) := by
  obtain ⟨-, hqmem, hclo, hsnd, hnodup⟩ :=
    discover_invariant c.headers_chain h hnh c.discoveryFuel [h] [] order hd
      (by simp)
      (by simp)
      (fun y hy => Or.inl (by simpa using hy))
      (by simp)
      (fun z hz => Or.inl (by simpa using hz))
  have hd1 : discoverLoop c.headers_chain c.headers_chain.headers.length
      ([] ++ c.headers_chain.children h) ([] ++ [h]) = some order := hd
  have hmemdesc2 : ∀ u v, u ∈ order → Descend c.headers_chain u v → v ∈ order := by
    intro u v hu huv
    induction huv with
    | single hstep => exact hclo u hu _ hstep
    | tail h1 h2 ih2 => exact hclo _ ih2 _ h2
  have hcycfalse : Descend c.headers_chain h h → False := by
    intro hcyc
    have hn := discoverLoop_cycle_none c.headers_chain h hcyc c.discoveryFuel [h] []
      ⟨h, by simp, Relation.ReflTransGen.refl⟩
    rw [hn] at hd
    exact Option.noConfusion hd
  have honestep : ∀ pp qq, ∀ hpp : pp < order.length, ∀ hqq : qq < order.length,
      childStep c.headers_chain (order.get ⟨qq, hqq⟩) (order.get ⟨pp, hpp⟩) → qq < pp := by
    intro pp qq hpp hqq hcs
    rcases discover_origin c.headers_chain c.discoveryFuel [h] [] order hd pp hpp
        (by simp) with hmem | ⟨q2, hq2, -, hq2p, hcs2⟩
    · have hyh : order.get ⟨pp, hpp⟩ = h := by simpa using hmem
      exfalso
      rcases hsnd (order.get ⟨qq, hqq⟩) (List.get_mem order qq hqq) with hqh | hqd
      · apply hcycfalse
        refine Relation.TransGen.single ?_
        rw [hqh, hyh] at hcs
        exact hcs
      · apply hcycfalse
        rw [hyh] at hcs
        exact Relation.TransGen.tail hqd hcs
    · have hpar : order.get ⟨q2, hq2⟩ = order.get ⟨qq, hqq⟩ :=
        childStep_unique c.headers_chain hnh hcs2 hcs
      have hfin : (⟨q2, hq2⟩ : Fin order.length) = ⟨qq, hqq⟩ := hnodup.get_inj_iff.mp hpar
      have hqn : q2 = qq := by
        have := congrArg Fin.val hfin
        simpa using this
      omega
  have hdescpos : ∀ aa bb, Descend c.headers_chain aa bb →
      ∀ ia ib, ∀ hia : ia < order.length, ∀ hib : ib < order.length,
        order.get ⟨ia, hia⟩ = aa → order.get ⟨ib, hib⟩ = bb → ia < ib := by
    intro aa bb hab
    induction hab with
    | single hstep =>
      intro ia ib hia hib ha hb
      exact honestep ib ia hib hia (by rw [ha, hb]; exact hstep)
    | tail hab2 hbc ih2 =>
      intro ia ib hia hib ha hb
      have hmm : _ ∈ order := hmemdesc2 aa _ (by rw [← ha]; exact List.get_mem order ia hia) hab2
      obtain ⟨ifin, hgm⟩ := List.mem_iff_get.mp hmm
      have h1 := ih2 ia ifin.1 hia ifin.2 ha (by simpa using hgm)
      have h2 := honestep ib ifin.1 hib ifin.2 (by
        rw [hb]
        have : order.get ⟨ifin.1, ifin.2⟩ = order.get ifin := rfl
        rw [this, hgm]
        exact hbc)
      omega
  refine ⟨?_, ?_, ?_, ?_⟩
  · unfold Chain.forget_with_children
    rw [hd]
  · obtain ⟨ext2, hext2⟩ := discover_prefix c.headers_chain _ _ _ _ hd1
    rw [hext2]
    simp
  · intro x
    constructor
    · intro hx
      exact hsnd x hx
    · intro hx
      rcases hx with hxh | hxd
      · subst hxh
        exact hqmem x (by simp)
      · exact hmemdesc2 h x (hqmem h (by simp)) hxd
  · intro i j hi hj hij hdes
    have := hdescpos (order.get ⟨j, hj⟩) (order.get ⟨i, hi⟩) hdes j i hj hi rfl rfl
    omega

/-- Headers chain with root hash 1 having children 2 and 3, and 2 having
child 4 (scenario 5 of the spec). -/
def wHeaders5 : BestHeadersChain :=
  { headers := [{ hash := 2, previous_header_hash := 1 },
                { hash := 3, previous_header_hash := 1 },
                { hash := 4, previous_header_hash := 2 }] }

/-- A chain whose scheduled queue holds 2, 3, 4 and whose headers chain
is wHeaders5. -/
def wChain5 : Chain :=
  { genesis_block_hash := 100
    best_storage_block := { number := 0, hash := 100 }
    storage := wStoreOk
    hash_chain := { verifying := [], requested := [], scheduled := [2, 3, 4] }
    headers_chain := wHeaders5 }

/-- Witness for forget_with_children_spec: discovery from hash 1 finds
[1, 2, 3, 4]; forgetting folds over the reverse, so 1 is forgotten
last. -/
theorem forget_with_children_spec_witness :
    wChain5.forget_with_children 1 =
      some (([1, 2, 3, 4].reverse).foldl (fun ch x => (ch.forget x).1) wChain5) ∧
    [1, 2, 3, 4].head? = some 1 := by
  have hthm := forget_with_children_spec wChain5 1 [1, 2, 3, 4] (by decide) rfl
  exact ⟨hthm.1, hthm.2.1⟩
